import Mathlib

/-!
Shallow embedding of `src/reluplex/ReluConstraint.cpp` (Marabou's ReLU
piecewise-linear constraint handler) and proofs about its behaviour.

Floating-point doubles are modelled as rationals (ℚ).  The comparison
helpers of `FloatUtils` (whose source is not part of this fragment) are
modelled from the spec: `isPositive`/`isNegative` are strict sign tests and
`areEqual` is equality within the system's floating-point tolerance `eps`,
which is kept as an explicit parameter.

Interaction with the tableau (`_tableau->applySplit(...)`) is modelled as an
explicit trace: every notification entry point returns, next to the updated
constraint state, the list of case splits it pushed into the tableau.
-/

namespace Marabou

/-- `Tightening::BoundType` — the kind of a bound tightening. -/
inductive BoundType where
  | UB
  | LB
  deriving DecidableEq, Repr

/-- `Tightening` — an immutable (variable, value, kind) bound update. -/
structure Tightening where
  var : Nat
  value : ℚ
  type : BoundType
  deriving DecidableEq, Repr

/-- One addend `coefficient * variable` of an `Equation`. -/
structure Addend where
  coeff : ℚ
  var : Nat
  deriving DecidableEq, Repr

/-- `Equation` — a linear equality with an optional designated auxiliary
column (`markAuxiliaryVariable`) and a scalar right-hand side. -/
structure Equation where
  addends : List Addend
  auxiliary : Option Nat
  scalar : ℚ
  deriving DecidableEq, Repr

/-- `PiecewiseLinearCaseSplit` — a bundle of bound tightenings and
equations representing one phase of the constraint. -/
structure PiecewiseLinearCaseSplit where
  boundTightenings : List Tightening
  equations : List Equation
  deriving DecidableEq, Repr

/-- The empty case split, used only as the (unreachable) default for list
indexing. -/
def PiecewiseLinearCaseSplit.empty : PiecewiseLinearCaseSplit :=
  { boundTightenings := [], equations := [] }

namespace FloatUtils

/-- Modelled from the spec: `FloatUtils::isPositive` (source not in this
fragment) — "strictly positive". -/
def isPositive (x : ℚ) : Bool := decide (0 < x)

/-- Modelled from the spec: `FloatUtils::isNegative` (source not in this
fragment) — "strictly negative". -/
def isNegative (x : ℚ) : Bool := decide (x < 0)

/-- Modelled from the spec: `FloatUtils::areEqual` (source not in this
fragment) — equality "within the system's floating-point equality
tolerance" `eps`, i.e. `|x - y| ≤ eps`, written without `abs` so that it
evaluates by kernel reduction. -/
def areEqual (eps x y : ℚ) : Bool := decide (x - y ≤ eps ∧ y - x ≤ eps)

end FloatUtils

/-- The `Map<unsigned, double>` cache, embedded as an association list. -/
abbrev VMap := List (Nat × ℚ)

/-- `Map::operator[] = value` — insert or update the entry for a key. -/
def VMap.setEntry : VMap → Nat → ℚ → VMap
  | [], k, v => [(k, v)]
  | (k', v') :: rest, k, v =>
      if k = k' then (k, v) :: rest else (k', v') :: VMap.setEntry rest k v

/-- `Map::get` — look up the entry for a key. -/
def VMap.getEntry : VMap → Nat → Option ℚ
  | [], _ => none
  | (k', v') :: rest, k => if k = k' then some v' else VMap.getEntry rest k

/-- `Map::exists` — membership test for a key. -/
def VMap.hasKey (m : VMap) (k : Nat) : Bool := (m.getEntry k).isSome

/-- The state of a `ReluConstraint` object: the two participating variable
ids, the auxiliary variable id, the two phase splits built at construction
(`_splits`), and the mutable caches (`_assignment`, `_lowerBounds`,
`_upperBounds`, `_validSplits`). -/
structure ReluConstraint where
  b : Nat
  f : Nat
  auxVariable : Nat
  splits : List PiecewiseLinearCaseSplit
  assignment : VMap
  lowerBounds : VMap
  upperBounds : VMap
  validSplits : List PiecewiseLinearCaseSplit
  deriving DecidableEq, Repr

/-- The active phase split built in the constructor:
tightening `b ≥ 0`, equation `b - f + aux = 0` with `aux` marked auxiliary,
and `aux` pinned to `[0, 0]`. -/
def activePhase (b f auxVariable : Nat) : PiecewiseLinearCaseSplit :=
  { boundTightenings :=
      [ ⟨b, 0, BoundType.LB⟩
      , ⟨auxVariable, 0, BoundType.UB⟩
      , ⟨auxVariable, 0, BoundType.LB⟩ ]
  , equations :=
      [ { addends := [⟨1, b⟩, ⟨-1, f⟩, ⟨1, auxVariable⟩]
        , auxiliary := some auxVariable
        , scalar := 0 } ] }

/-- The inactive phase split built in the constructor:
tightening `b ≤ 0`, equation `f + aux = 0` with `aux` marked auxiliary,
and `aux` pinned to `[0, 0]`. -/
def inactivePhase (b f auxVariable : Nat) : PiecewiseLinearCaseSplit :=
  { boundTightenings :=
      [ ⟨b, 0, BoundType.UB⟩
      , ⟨auxVariable, 0, BoundType.UB⟩
      , ⟨auxVariable, 0, BoundType.LB⟩ ]
  , equations :=
      [ { addends := [⟨1, f⟩, ⟨1, auxVariable⟩]
        , auxiliary := some auxVariable
        , scalar := 0 } ] }

/-- `ReluConstraint::ReluConstraint(b, f)` — the constructor.  The fresh
auxiliary id produced by `FreshVariables::getNextVariable()` is passed in
explicitly.  `_splits = [active, inactive]`; initially both splits are
valid. -/
def ReluConstraint.construct (b f auxVariable : Nat) : ReluConstraint :=
  { b := b
  , f := f
  , auxVariable := auxVariable
  , splits := [activePhase b f auxVariable, inactivePhase b f auxVariable]
  , assignment := []
  , lowerBounds := []
  , upperBounds := []
  , validSplits := [activePhase b f auxVariable, inactivePhase b f auxVariable] }

/-- `ReluConstraint::notifyVariableValue` — unconditionally caches the
value for the notified variable. -/
def notifyVariableValue (c : ReluConstraint) (var : Nat) (value : ℚ) :
    ReluConstraint :=
  { c with assignment := c.assignment.setEntry var value }

/-- `ReluConstraint::notifyLowerBound` — caches the bound; if the variable
is `b` or `f` and the bound is positive, clears `_validSplits` down to the
active split and applies it to the tableau.  The second component is the
list of `applySplit` calls issued. -/
def notifyLowerBound (c : ReluConstraint) (var : Nat) (bound : ℚ) :
    ReluConstraint × List PiecewiseLinearCaseSplit :=
  if (var = c.b || var = c.f) && FloatUtils.isPositive bound then
    ({ c with lowerBounds := c.lowerBounds.setEntry var bound
            , validSplits := [c.splits.getD 0 PiecewiseLinearCaseSplit.empty] },
     [c.splits.getD 0 PiecewiseLinearCaseSplit.empty])
  else
    ({ c with lowerBounds := c.lowerBounds.setEntry var bound }, [])

/-- `ReluConstraint::notifyUpperBound` — caches the bound; if the variable
is `f` and the bound is negative, clears `_validSplits` down to the
inactive split and applies it to the tableau. -/
def notifyUpperBound (c : ReluConstraint) (var : Nat) (bound : ℚ) :
    ReluConstraint × List PiecewiseLinearCaseSplit :=
  if (var = c.f) && FloatUtils.isNegative bound then
    ({ c with upperBounds := c.upperBounds.setEntry var bound
            , validSplits := [c.splits.getD 1 PiecewiseLinearCaseSplit.empty] },
     [c.splits.getD 1 PiecewiseLinearCaseSplit.empty])
  else
    ({ c with upperBounds := c.upperBounds.setEntry var bound }, [])

/-- `ReluConstraint::participatingVariable`. -/
def participatingVariable (c : ReluConstraint) (var : Nat) : Bool :=
  (var = c.b) || (var = c.f)

/-- `ReluConstraint::getParticiatingVariables` (name as in the source). -/
def getParticiatingVariables (c : ReluConstraint) : List Nat := [c.b, c.f]

/-- Error conditions surfaced by the query entry points:
`missingAssignment` is `ReluplexError(PARTICIPATING_VARIABLES_ABSENT)`;
`assertionFailure` is a failed `ASSERT` (debug semantics, per the spec's
"fatal programming-error" classes). -/
inductive QueryError where
  | missingAssignment
  | assertionFailure
  deriving DecidableEq, Repr

instance {ε α : Type} [DecidableEq ε] [DecidableEq α] : DecidableEq (Except ε α) := fun x y =>
  match x, y with
  | Except.error a, Except.error b =>
      if h : a = b then isTrue (by rw [h]) else isFalse (by intro hc; cases hc; exact h rfl)
  | Except.error _, Except.ok _ => isFalse (by intro hc; cases hc)
  | Except.ok _, Except.error _ => isFalse (by intro hc; cases hc)
  | Except.ok a, Except.ok b =>
      if h : a = b then isTrue (by rw [h]) else isFalse (by intro hc; cases hc; exact h rfl)

/-- `ReluConstraint::satisfied()` — throws `PARTICIPATING_VARIABLES_ABSENT`
when either value is missing, asserts `f` non-negative, then: if `f`
positive, `b` must equal `f` within tolerance; otherwise `b` must be
non-positive. -/
def satisfied (eps : ℚ) (c : ReluConstraint) : Except QueryError Bool :=
  if !(c.assignment.hasKey c.b && c.assignment.hasKey c.f) then
    Except.error QueryError.missingAssignment
  else
    let bValue := (c.assignment.getEntry c.b).getD 0
    let fValue := (c.assignment.getEntry c.f).getD 0
    if FloatUtils.isNegative fValue then
      Except.error QueryError.assertionFailure
    else if FloatUtils.isPositive fValue then
      Except.ok (FloatUtils.areEqual eps bValue fValue)
    else
      Except.ok (!FloatUtils.isPositive bValue)

/-- `PiecewiseLinearConstraint::Fix` — a (variable, suggested value)
repair hint. -/
structure Fix where
  var : Nat
  value : ℚ
  deriving DecidableEq, Repr

/-- `ReluConstraint::getPossibleFixes()` — guarded by `ASSERT(!satisfied())`
(which also surfaces the missing-value and negative-`f` conditions, as the
spec requires); then returns the two fixes of the violation's shape. -/
def getPossibleFixes (eps : ℚ) (c : ReluConstraint) :
    Except QueryError (List Fix) :=
  match satisfied eps c with
  | Except.error e => Except.error e
  | Except.ok true => Except.error QueryError.assertionFailure
  | Except.ok false =>
    let bValue := (c.assignment.getEntry c.b).getD 0
    let fValue := (c.assignment.getEntry c.f).getD 0
    if FloatUtils.isPositive fValue then
      if FloatUtils.isPositive bValue then
        Except.ok [⟨c.b, fValue⟩, ⟨c.f, bValue⟩]
      else
        Except.ok [⟨c.b, fValue⟩, ⟨c.f, 0⟩]
    else
      Except.ok [⟨c.b, 0⟩, ⟨c.f, bValue⟩]

/-- `ReluConstraint::getCaseSplits()` — returns `_validSplits`. -/
def getCaseSplits (c : ReluConstraint) : List PiecewiseLinearCaseSplit :=
  c.validSplits

/-- Applying a `Fix`: substitute the suggested value for the named variable
in the cached assignment (via the ordinary value-notification path). -/
def applyFix (c : ReluConstraint) (fx : Fix) : ReluConstraint :=
  notifyVariableValue c fx.var fx.value

/-- One notification event delivered by the tableau. -/
inductive Event where
  | value (var : Nat) (val : ℚ)
  | lower (var : Nat) (val : ℚ)
  | upper (var : Nat) (val : ℚ)
  deriving DecidableEq, Repr

/-- Dispatch one notification; the second component is the list of
`applySplit` calls the notification issued. -/
def step (c : ReluConstraint) : Event → ReluConstraint × List PiecewiseLinearCaseSplit
  | Event.value var val => (notifyVariableValue c var val, [])
  | Event.lower var val => notifyLowerBound c var val
  | Event.upper var val => notifyUpperBound c var val

/-- The constraint state after a sequence of notifications. -/
def runState (c : ReluConstraint) : List Event → ReluConstraint
  | [] => c
  | e :: es => runState (step c e).1 es

/-- The concatenated trace of `applySplit` calls issued over a sequence of
notifications. -/
def runTrace (c : ReluConstraint) : List Event → List PiecewiseLinearCaseSplit
  | [] => []
  | e :: es => (step c e).2 ++ runTrace (step c e).1 es

/-- An event that collapses the valid-phase set of a constraint on
variables `(b, f)`: a positive lower bound on `b` or `f`, or a negative
upper bound on `f` (the conditions of `notifyLowerBound` and
`notifyUpperBound`). -/
def collapsingEvent (b f : Nat) : Event → Bool
  | Event.value _ _ => false
  | Event.lower var val => (var = b || var = f) && FloatUtils.isPositive val
  | Event.upper var val => (var = f) && FloatUtils.isNegative val

/-- An event that collapses the valid-phase set to the inactive split:
a negative upper bound on `f`. -/
def inactiveCollapsingEvent (f : Nat) : Event → Bool
  | Event.upper var val => (var = f) && FloatUtils.isNegative val
  | _ => false

/-! ### Lemmas about the cache embedding -/

namespace VMap

theorem getEntry_setEntry_self (m : VMap) (k : Nat) (v : ℚ) :
    (m.setEntry k v).getEntry k = some v := by
  induction m with
  | nil => simp [setEntry, getEntry]
  | cons hd tl ih =>
    obtain ⟨k0, v0⟩ := hd
    by_cases h : k = k0
    · simp [setEntry, getEntry, h]
    · simp [setEntry, getEntry, h, ih]

theorem getEntry_setEntry_ne (m : VMap) (k k' : Nat) (v : ℚ) (h : k' ≠ k) :
    (m.setEntry k v).getEntry k' = m.getEntry k' := by
  induction m with
  | nil => simp [setEntry, getEntry, h]
  | cons hd tl ih =>
    obtain ⟨k0, v0⟩ := hd
    by_cases hk : k = k0
    · subst hk
      simp [setEntry, getEntry, h]
    · by_cases hk' : k' = k0
      · simp [setEntry, getEntry, hk, hk']
      · simp [setEntry, getEntry, hk, hk', ih]

theorem hasKey_of_getEntry (m : VMap) (k : Nat) (v : ℚ)
    (h : m.getEntry k = some v) : m.hasKey k = true := by
  simp [hasKey, h]

theorem exists_getEntry_of_hasKey (m : VMap) (k : Nat)
    (h : m.hasKey k = true) : ∃ v, m.getEntry k = some v := by
  simp only [hasKey, Option.isSome_iff_exists] at h
  exact h

end VMap

/-! ### The satisfaction predicate -/

/-- With both values cached, `satisfied` reduces to the three-way decision
of the source. -/
theorem satisfied_eq_of_values (eps : ℚ) (c : ReluConstraint) (bv fv : ℚ)
    (hb : c.assignment.getEntry c.b = some bv)
    (hf : c.assignment.getEntry c.f = some fv) :
    satisfied eps c =
      if fv < 0 then Except.error QueryError.assertionFailure
      else if 0 < fv then Except.ok (FloatUtils.areEqual eps bv fv)
      else Except.ok (!FloatUtils.isPositive bv) := by
  rw [satisfied]
  rw [VMap.hasKey_of_getEntry _ _ _ hb, VMap.hasKey_of_getEntry _ _ _ hf]
  simp [hb, hf, FloatUtils.isNegative, FloatUtils.isPositive]

/-- C1: with both values cached and `f ≥ 0`, `satisfied` returns `true`
iff (`f` strictly positive and `b` equals `f` within the tolerance) or
(`f` zero and `b` non-positive). -/
theorem satisfied_characterization (eps : ℚ) (c : ReluConstraint) (bv fv : ℚ)
    (hb : c.assignment.getEntry c.b = some bv)
    (hf : c.assignment.getEntry c.f = some fv)
    (hfnn : 0 ≤ fv) :
    satisfied eps c = Except.ok true ↔
      ((0 < fv ∧ |bv - fv| ≤ eps) ∨ (fv = 0 ∧ bv ≤ 0)) := by
  rw [satisfied_eq_of_values eps c bv fv hb hf, if_neg (not_lt.mpr hfnn)]
  rcases eq_or_lt_of_le hfnn with hzero | hpos
  · subst hzero
    simp [lt_irrefl, FloatUtils.isPositive, not_lt]
  · rw [if_pos hpos]
    simp [FloatUtils.areEqual, abs_sub_le_iff, hpos, ne_of_gt hpos]

/-- Witness for C1 at the concrete state with `b = 3`, `f = 3` cached. -/
theorem satisfied_characterization_witness :
    ((notifyVariableValue (notifyVariableValue (ReluConstraint.construct 0 1 2) 0 3) 1 3).assignment.getEntry
        (notifyVariableValue (notifyVariableValue (ReluConstraint.construct 0 1 2) 0 3) 1 3).b = some 3) ∧
    ((0:ℚ) ≤ 3) ∧
    (satisfied 0 (notifyVariableValue (notifyVariableValue (ReluConstraint.construct 0 1 2) 0 3) 1 3) = Except.ok true ↔
      ((0 < (3:ℚ) ∧ |(3:ℚ) - 3| ≤ 0) ∨ ((3:ℚ) = 0 ∧ (3:ℚ) ≤ 0))) :=
  ⟨by decide, by decide,
    satisfied_characterization 0
      (notifyVariableValue (notifyVariableValue (ReluConstraint.construct 0 1 2) 0 3) 1 3)
      3 3 (by decide) (by decide) (by decide)⟩

/-- A non-error result of `satisfied` requires both values to be cached. -/
theorem satisfied_ok_values (eps : ℚ) (c : ReluConstraint) (r : Bool)
    (h : satisfied eps c = Except.ok r) :
    ∃ bv fv, c.assignment.getEntry c.b = some bv ∧
      c.assignment.getEntry c.f = some fv := by
  by_cases hkb : c.assignment.hasKey c.b = true
  · by_cases hkf : c.assignment.hasKey c.f = true
    · obtain ⟨bv, hb⟩ := VMap.exists_getEntry_of_hasKey _ _ hkb
      obtain ⟨fv, hf⟩ := VMap.exists_getEntry_of_hasKey _ _ hkf
      exact ⟨bv, fv, hb, hf⟩
    · rw [satisfied] at h
      rw [Bool.not_eq_true] at hkf
      simp [hkf] at h
  · rw [satisfied] at h
    rw [Bool.not_eq_true] at hkb
    simp [hkb] at h

/-- Unpacking `satisfied = ok false`: `f` is non-negative and the state is
in exactly one of the violating regimes of the source. -/
theorem satisfied_false_cases (eps : ℚ) (c : ReluConstraint) (bv fv : ℚ)
    (hb : c.assignment.getEntry c.b = some bv)
    (hf : c.assignment.getEntry c.f = some fv)
    (h : satisfied eps c = Except.ok false) :
    0 ≤ fv ∧ ((0 < fv ∧ ¬(bv - fv ≤ eps ∧ fv - bv ≤ eps)) ∨ (fv = 0 ∧ 0 < bv)) := by
  rw [satisfied_eq_of_values eps c bv fv hb hf] at h
  by_cases hneg : fv < 0
  · simp [hneg] at h
  · rw [if_neg hneg] at h
    refine ⟨not_lt.mp hneg, ?_⟩
    by_cases hpos : 0 < fv
    · rw [if_pos hpos] at h
      left
      refine ⟨hpos, ?_⟩
      simpa [FloatUtils.areEqual] using h
    · rw [if_neg hpos] at h
      right
      refine ⟨le_antisymm (not_lt.mp hpos) (not_lt.mp hneg), ?_⟩
      simpa [FloatUtils.isPositive] using h

/-- On a violating state with a non-negative tolerance, the two
participating variables must be distinct ids (with `b = f` the cached
values would coincide and the relation would be satisfied). -/
theorem violating_b_ne_f (eps : ℚ) (c : ReluConstraint) (bv fv : ℚ)
    (heps : 0 ≤ eps)
    (hb : c.assignment.getEntry c.b = some bv)
    (hf : c.assignment.getEntry c.f = some fv)
    (h : satisfied eps c = Except.ok false) : c.b ≠ c.f := by
  intro heq
  rw [heq, hf, Option.some.injEq] at hb
  subst hb
  obtain ⟨hfnn, hcases⟩ := satisfied_false_cases eps c fv fv (by rw [heq]; exact hf) hf h
  rcases hcases with ⟨_, hne⟩ | ⟨hzero, hpos⟩
  · exact hne ⟨by simpa using heps, by simpa using heps⟩
  · rw [hzero] at hpos
    exact lt_irrefl 0 hpos

/-- With both values cached and `satisfied = ok false`, `getPossibleFixes`
reduces to the three-way classification of the source. -/
theorem getPossibleFixes_eq (eps : ℚ) (c : ReluConstraint) (bv fv : ℚ)
    (hb : c.assignment.getEntry c.b = some bv)
    (hf : c.assignment.getEntry c.f = some fv)
    (h : satisfied eps c = Except.ok false) :
    getPossibleFixes eps c =
      if 0 < fv then
        if 0 < bv then Except.ok [⟨c.b, fv⟩, ⟨c.f, bv⟩]
        else Except.ok [⟨c.b, fv⟩, ⟨c.f, 0⟩]
      else Except.ok [⟨c.b, 0⟩, ⟨c.f, bv⟩] := by
  rw [getPossibleFixes, h]
  simp [hb, hf, FloatUtils.isPositive]

theorem applyFix_b (c : ReluConstraint) (fx : Fix) : (applyFix c fx).b = c.b := rfl

theorem applyFix_f (c : ReluConstraint) (fx : Fix) : (applyFix c fx).f = c.f := rfl

theorem applyFix_assignment (c : ReluConstraint) (fx : Fix) :
    (applyFix c fx).assignment = c.assignment.setEntry fx.var fx.value := rfl

/-- If both cached values coincide at a non-negative value, the constraint
is satisfied (for a non-negative tolerance). -/
theorem satisfied_of_equal_values (eps : ℚ) (c : ReluConstraint) (v : ℚ)
    (heps : 0 ≤ eps) (hv : 0 ≤ v)
    (hb : c.assignment.getEntry c.b = some v)
    (hf : c.assignment.getEntry c.f = some v) :
    satisfied eps c = Except.ok true := by
  rw [satisfied_eq_of_values eps c v v hb hf, if_neg (not_lt.mpr hv)]
  rcases eq_or_lt_of_le hv with h0 | hpos
  · subst h0
    simp [FloatUtils.isPositive, lt_irrefl]
  · rw [if_pos hpos]
    simp [FloatUtils.areEqual, sub_self, heps]

/-- If `b`'s cached value is non-positive and `f`'s is zero, the
constraint is satisfied. -/
theorem satisfied_of_nonpos_b_zero_f (eps : ℚ) (c : ReluConstraint) (bv : ℚ)
    (hbnp : ¬0 < bv)
    (hb : c.assignment.getEntry c.b = some bv)
    (hf : c.assignment.getEntry c.f = some 0) :
    satisfied eps c = Except.ok true := by
  rw [satisfied_eq_of_values eps c bv 0 hb hf]
  simp [lt_irrefl, FloatUtils.isPositive, hbnp]

/-- C4: on every violating cached assignment (with non-negative
tolerance), `getPossibleFixes` returns exactly 2 fixes, and applying
either one — substituting the suggested value for the named variable and
leaving every other variable's cached value untouched — makes
`satisfied` true. -/
theorem getPossibleFixes_repair (eps : ℚ) (c : ReluConstraint) (heps : 0 ≤ eps)
    (hviol : satisfied eps c = Except.ok false) :
    ∃ fixes, getPossibleFixes eps c = Except.ok fixes ∧ fixes.length = 2 ∧
      ∀ fx ∈ fixes,
        satisfied eps (applyFix c fx) = Except.ok true ∧
        ∀ w, w ≠ fx.var →
          (applyFix c fx).assignment.getEntry w = c.assignment.getEntry w := by
  obtain ⟨bv, fv, hb, hf⟩ := satisfied_ok_values eps c false hviol
  obtain ⟨hfnn, hcases⟩ := satisfied_false_cases eps c bv fv hb hf hviol
  have hbf : c.b ≠ c.f := violating_b_ne_f eps c bv fv heps hb hf hviol
  have hframe : ∀ (fx : Fix), ∀ w, w ≠ fx.var →
      (applyFix c fx).assignment.getEntry w = c.assignment.getEntry w := by
    intro fx w hw
    rw [applyFix_assignment]
    exact VMap.getEntry_setEntry_ne _ _ _ _ hw
  have hfixb : ∀ x : ℚ, (applyFix c ⟨c.b, x⟩).assignment.getEntry c.b = some x := by
    intro x
    rw [applyFix_assignment]
    exact VMap.getEntry_setEntry_self _ _ _
  have hfixbf : ∀ x : ℚ, (applyFix c ⟨c.b, x⟩).assignment.getEntry c.f = some fv := by
    intro x
    rw [applyFix_assignment, VMap.getEntry_setEntry_ne _ _ _ _ (Ne.symm hbf)]
    exact hf
  have hfixf : ∀ x : ℚ, (applyFix c ⟨c.f, x⟩).assignment.getEntry c.f = some x := by
    intro x
    rw [applyFix_assignment]
    exact VMap.getEntry_setEntry_self _ _ _
  have hfixfb : ∀ x : ℚ, (applyFix c ⟨c.f, x⟩).assignment.getEntry c.b = some bv := by
    intro x
    rw [applyFix_assignment, VMap.getEntry_setEntry_ne _ _ _ _ hbf]
    exact hb
  rcases hcases with ⟨hfpos, _⟩ | ⟨hfzero, hbpos⟩
  · by_cases hbpos : 0 < bv
    · refine ⟨[⟨c.b, fv⟩, ⟨c.f, bv⟩], ?_, rfl, ?_⟩
      · rw [getPossibleFixes_eq eps c bv fv hb hf hviol, if_pos hfpos, if_pos hbpos]
      · intro fx hfx
        rcases List.mem_cons.mp hfx with rfl | hfx2
        · exact ⟨satisfied_of_equal_values eps _ fv heps hfnn (hfixb fv) (hfixbf fv),
            hframe _⟩
        · rcases List.mem_cons.mp hfx2 with rfl | hnil
          · exact ⟨satisfied_of_equal_values eps _ bv heps hbpos.le (hfixfb bv) (hfixf bv),
              hframe _⟩
          · cases hnil
    · refine ⟨[⟨c.b, fv⟩, ⟨c.f, 0⟩], ?_, rfl, ?_⟩
      · rw [getPossibleFixes_eq eps c bv fv hb hf hviol, if_pos hfpos, if_neg hbpos]
      · intro fx hfx
        rcases List.mem_cons.mp hfx with rfl | hfx2
        · exact ⟨satisfied_of_equal_values eps _ fv heps hfnn (hfixb fv) (hfixbf fv),
            hframe _⟩
        · rcases List.mem_cons.mp hfx2 with rfl | hnil
          · exact ⟨satisfied_of_nonpos_b_zero_f eps _ bv hbpos (hfixfb 0) (hfixf 0),
              hframe _⟩
          · cases hnil
  · refine ⟨[⟨c.b, 0⟩, ⟨c.f, bv⟩], ?_, rfl, ?_⟩
    · rw [getPossibleFixes_eq eps c bv fv hb hf hviol,
        if_neg (by rw [hfzero]; exact lt_irrefl 0)]
    · intro fx hfx
      rcases List.mem_cons.mp hfx with rfl | hfx2
      · refine ⟨satisfied_of_equal_values eps _ 0 heps le_rfl (hfixb 0) ?_, hframe _⟩
        rw [applyFix_f, hfixbf 0, hfzero]
      · rcases List.mem_cons.mp hfx2 with rfl | hnil
        · exact ⟨satisfied_of_equal_values eps _ bv heps hbpos.le (hfixfb bv) (hfixf bv),
            hframe _⟩
        · cases hnil

/-- Witness for C4 at the concrete violating state `b = 4`, `f = 0`. -/
theorem getPossibleFixes_repair_witness :
    ((0:ℚ) ≤ 0) ∧
    (satisfied 0 (notifyVariableValue (notifyVariableValue (ReluConstraint.construct 0 1 2) 0 4) 1 0) = Except.ok false) ∧
    (∃ fixes,
      getPossibleFixes 0 (notifyVariableValue (notifyVariableValue (ReluConstraint.construct 0 1 2) 0 4) 1 0) = Except.ok fixes ∧
      fixes.length = 2 ∧
      ∀ fx ∈ fixes,
        satisfied 0 (applyFix (notifyVariableValue (notifyVariableValue (ReluConstraint.construct 0 1 2) 0 4) 1 0) fx) = Except.ok true ∧
        ∀ w, w ≠ fx.var →
          (applyFix (notifyVariableValue (notifyVariableValue (ReluConstraint.construct 0 1 2) 0 4) 1 0) fx).assignment.getEntry w =
            (notifyVariableValue (notifyVariableValue (ReluConstraint.construct 0 1 2) 0 4) 1 0).assignment.getEntry w) :=
  ⟨by decide, by decide,
    getPossibleFixes_repair 0
      (notifyVariableValue (notifyVariableValue (ReluConstraint.construct 0 1 2) 0 4) 1 0)
      (by decide) (by decide)⟩

/-- C5: every violating cached assignment falls into exactly one of three
disjoint shapes, and `getPossibleFixes` returns the two fixes of that
shape in the fixed order of the source. -/
theorem getPossibleFixes_classification (eps : ℚ) (c : ReluConstraint) (bv fv : ℚ)
    (heps : 0 ≤ eps)
    (hb : c.assignment.getEntry c.b = some bv)
    (hf : c.assignment.getEntry c.f = some fv)
    (hviol : satisfied eps c = Except.ok false) :
    (0 < fv ∧ 0 < bv ∧ bv ≠ fv ∧
      getPossibleFixes eps c = Except.ok [⟨c.b, fv⟩, ⟨c.f, bv⟩])
    ∨ (0 < fv ∧ bv ≤ 0 ∧
      getPossibleFixes eps c = Except.ok [⟨c.b, fv⟩, ⟨c.f, 0⟩])
    ∨ (fv = 0 ∧ 0 < bv ∧
      getPossibleFixes eps c = Except.ok [⟨c.b, 0⟩, ⟨c.f, bv⟩]) := by
  obtain ⟨hfnn, hcases⟩ := satisfied_false_cases eps c bv fv hb hf hviol
  rcases hcases with ⟨hfpos, hne⟩ | ⟨hfzero, hbpos⟩
  · by_cases hbpos : 0 < bv
    · left
      refine ⟨hfpos, hbpos, ?_, ?_⟩
      · intro heq
        exact hne ⟨by rw [heq, sub_self]; exact heps, by rw [heq, sub_self]; exact heps⟩
      · rw [getPossibleFixes_eq eps c bv fv hb hf hviol, if_pos hfpos, if_pos hbpos]
    · right; left
      exact ⟨hfpos, not_lt.mp hbpos,
        by rw [getPossibleFixes_eq eps c bv fv hb hf hviol, if_pos hfpos, if_neg hbpos]⟩
  · right; right
    exact ⟨hfzero, hbpos,
      by rw [getPossibleFixes_eq eps c bv fv hb hf hviol,
        if_neg (by rw [hfzero]; exact lt_irrefl 0)]⟩

/-- Witness for C5 at the concrete violating state `b = 4`, `f = 0`. -/
theorem getPossibleFixes_classification_witness :
    ((0:ℚ) ≤ 0) ∧
    (satisfied 0 (notifyVariableValue (notifyVariableValue (ReluConstraint.construct 0 1 2) 0 4) 1 0) = Except.ok false) ∧
    ((0 < (0:ℚ) ∧ 0 < (4:ℚ) ∧ (4:ℚ) ≠ 0 ∧
      getPossibleFixes 0 (notifyVariableValue (notifyVariableValue (ReluConstraint.construct 0 1 2) 0 4) 1 0) = Except.ok [⟨0, 0⟩, ⟨1, 4⟩])
    ∨ (0 < (0:ℚ) ∧ (4:ℚ) ≤ 0 ∧
      getPossibleFixes 0 (notifyVariableValue (notifyVariableValue (ReluConstraint.construct 0 1 2) 0 4) 1 0) = Except.ok [⟨0, 0⟩, ⟨1, 0⟩])
    ∨ ((0:ℚ) = 0 ∧ 0 < (4:ℚ) ∧
      getPossibleFixes 0 (notifyVariableValue (notifyVariableValue (ReluConstraint.construct 0 1 2) 0 4) 1 0) = Except.ok [⟨0, 0⟩, ⟨1, 4⟩])) :=
  ⟨by decide, by decide,
    getPossibleFixes_classification 0
      (notifyVariableValue (notifyVariableValue (ReluConstraint.construct 0 1 2) 0 4) 1 0)
      4 0 (by decide) (by decide) (by decide) (by decide)⟩

/-! ### The valid-phase state machine -/

theorem step_fixedFields (c : ReluConstraint) (e : Event) :
    (step c e).1.b = c.b ∧ (step c e).1.f = c.f ∧
    (step c e).1.auxVariable = c.auxVariable ∧ (step c e).1.splits = c.splits := by
  cases e with
  | value v q => exact ⟨rfl, rfl, rfl, rfl⟩
  | lower v q =>
    simp only [step, notifyLowerBound]
    split
    · exact ⟨rfl, rfl, rfl, rfl⟩
    · exact ⟨rfl, rfl, rfl, rfl⟩
  | upper v q =>
    simp only [step, notifyUpperBound]
    split
    · exact ⟨rfl, rfl, rfl, rfl⟩
    · exact ⟨rfl, rfl, rfl, rfl⟩

theorem step_validSplits (c : ReluConstraint) (e : Event) :
    ((step c e).1.validSplits = c.validSplits ∧ (step c e).2 = [])
    ∨ ((step c e).1.validSplits = [c.splits.getD 0 PiecewiseLinearCaseSplit.empty] ∧
        (step c e).2 = [c.splits.getD 0 PiecewiseLinearCaseSplit.empty])
    ∨ ((step c e).1.validSplits = [c.splits.getD 1 PiecewiseLinearCaseSplit.empty] ∧
        (step c e).2 = [c.splits.getD 1 PiecewiseLinearCaseSplit.empty]) := by
  cases e with
  | value v q => exact Or.inl ⟨rfl, rfl⟩
  | lower v q =>
    simp only [step, notifyLowerBound]
    split
    · exact Or.inr (Or.inl ⟨rfl, rfl⟩)
    · exact Or.inl ⟨rfl, rfl⟩
  | upper v q =>
    simp only [step, notifyUpperBound]
    split
    · exact Or.inr (Or.inr ⟨rfl, rfl⟩)
    · exact Or.inl ⟨rfl, rfl⟩

theorem step_noncollapsing (c : ReluConstraint) (e : Event)
    (h : collapsingEvent c.b c.f e = false) :
    (step c e).1.validSplits = c.validSplits ∧ (step c e).2 = [] := by
  cases e with
  | value v q => exact ⟨rfl, rfl⟩
  | lower v q =>
    simp only [collapsingEvent] at h
    simp only [step, notifyLowerBound]
    rw [if_neg (by rw [h]; exact Bool.false_ne_true)]
    exact ⟨rfl, rfl⟩
  | upper v q =>
    simp only [collapsingEvent] at h
    simp only [step, notifyUpperBound]
    rw [if_neg (by rw [h]; exact Bool.false_ne_true)]
    exact ⟨rfl, rfl⟩

theorem step_lower_collapse (c : ReluConstraint) (v : Nat) (q : ℚ)
    (hv : v = c.b ∨ v = c.f) (hq : 0 < q) :
    (step c (Event.lower v q)).1.validSplits
        = [c.splits.getD 0 PiecewiseLinearCaseSplit.empty] ∧
    (step c (Event.lower v q)).2
        = [c.splits.getD 0 PiecewiseLinearCaseSplit.empty] := by
  simp only [step, notifyLowerBound]
  rw [if_pos (by rcases hv with h | h <;> simp [h, FloatUtils.isPositive, hq])]
  exact ⟨rfl, rfl⟩

theorem step_upper_collapse (c : ReluConstraint) (v : Nat) (q : ℚ)
    (hv : v = c.f) (hq : q < 0) :
    (step c (Event.upper v q)).1.validSplits
        = [c.splits.getD 1 PiecewiseLinearCaseSplit.empty] ∧
    (step c (Event.upper v q)).2
        = [c.splits.getD 1 PiecewiseLinearCaseSplit.empty] := by
  simp only [step, notifyUpperBound]
  rw [if_pos (by simp [hv, FloatUtils.isNegative, hq])]
  exact ⟨rfl, rfl⟩

theorem runState_cons (c : ReluConstraint) (e : Event) (es : List Event) :
    runState c (e :: es) = runState (step c e).1 es := rfl

theorem runState_append (c : ReluConstraint) (es es' : List Event) :
    runState c (es ++ es') = runState (runState c es) es' := by
  induction es generalizing c with
  | nil => rfl
  | cons e es ih =>
    rw [List.cons_append, runState_cons, runState_cons, ih]

/-- The run-time invariant of a constructed instance: the variable ids and
the phase table are those set up by the constructor, and the valid-phase
set is one of its three reachable values. -/
def goodState (b f auxVariable : Nat) (c : ReluConstraint) : Prop :=
  c.b = b ∧ c.f = f ∧
  c.splits = [activePhase b f auxVariable, inactivePhase b f auxVariable] ∧
  (c.validSplits = [activePhase b f auxVariable, inactivePhase b f auxVariable] ∨
   c.validSplits = [activePhase b f auxVariable] ∨
   c.validSplits = [inactivePhase b f auxVariable])

theorem goodState_construct (b f auxVariable : Nat) :
    goodState b f auxVariable (ReluConstraint.construct b f auxVariable) :=
  ⟨rfl, rfl, rfl, Or.inl rfl⟩

theorem goodState_step (b f auxVariable : Nat) (c : ReluConstraint) (e : Event)
    (h : goodState b f auxVariable c) : goodState b f auxVariable (step c e).1 := by
  obtain ⟨hb, hf, hsp, hval⟩ := h
  obtain ⟨hb', hf', _, hsp'⟩ := step_fixedFields c e
  refine ⟨hb'.trans hb, hf'.trans hf, hsp'.trans hsp, ?_⟩
  rcases step_validSplits c e with ⟨hv, _⟩ | ⟨hv, _⟩ | ⟨hv, _⟩
  · rw [hv]
    exact hval
  · rw [hv, hsp]
    exact Or.inr (Or.inl rfl)
  · rw [hv, hsp]
    exact Or.inr (Or.inr rfl)

theorem goodState_runState (b f auxVariable : Nat) (c : ReluConstraint)
    (es : List Event) (h : goodState b f auxVariable c) :
    goodState b f auxVariable (runState c es) := by
  induction es generalizing c with
  | nil => exact h
  | cons e es ih => exact ih _ (goodState_step b f auxVariable c e h)

theorem runState_noncollapsing (b f auxVariable : Nat) (c : ReluConstraint)
    (es : List Event) (hg : goodState b f auxVariable c)
    (h : ∀ e ∈ es, collapsingEvent b f e = false) :
    (runState c es).validSplits = c.validSplits ∧ runTrace c es = [] := by
  induction es generalizing c with
  | nil => exact ⟨rfl, rfl⟩
  | cons e es ih =>
    have he : collapsingEvent c.b c.f e = false := by
      rw [hg.1, hg.2.1]
      exact h e (List.mem_cons_self e es)
    obtain ⟨h1, h2⟩ := step_noncollapsing c e he
    obtain ⟨h3, h4⟩ := ih (step c e).1 (goodState_step b f auxVariable c e hg)
      (fun e' he' => h e' (List.mem_cons_of_mem e he'))
    refine ⟨by rw [runState_cons, h3, h1], ?_⟩
    rw [runTrace, h2, h4]
    rfl

theorem runState_length_one (b f auxVariable : Nat) (c : ReluConstraint)
    (es : List Event) (hg : goodState b f auxVariable c)
    (hlen : c.validSplits.length = 1) :
    (runState c es).validSplits.length = 1 := by
  induction es generalizing c with
  | nil => exact hlen
  | cons e es ih =>
    rw [runState_cons]
    apply ih _ (goodState_step b f auxVariable c e hg)
    rcases step_validSplits c e with ⟨hv, _⟩ | ⟨hv, _⟩ | ⟨hv, _⟩ <;> rw [hv]
    · exact hlen
    · rfl
    · rfl

theorem step_active_stays (b f auxVariable : Nat) (c : ReluConstraint) (e : Event)
    (hg : goodState b f auxVariable c)
    (hval : c.validSplits = [activePhase b f auxVariable])
    (hni : inactiveCollapsingEvent f e = false) :
    (step c e).1.validSplits = [activePhase b f auxVariable] := by
  obtain ⟨hb, hf, hsp, _⟩ := hg
  cases e with
  | value v q => exact hval
  | lower v q =>
    simp only [step, notifyLowerBound]
    split
    · rw [hsp]
      rfl
    · exact hval
  | upper v q =>
    simp only [step, notifyUpperBound]
    split
    · rename_i hcond
      simp only [inactiveCollapsingEvent] at hni
      rw [hf] at hcond
      rw [hcond] at hni
      exact Bool.noConfusion hni
    · exact hval

theorem runState_active_stays (b f auxVariable : Nat) (c : ReluConstraint)
    (es : List Event) (hg : goodState b f auxVariable c)
    (hval : c.validSplits = [activePhase b f auxVariable])
    (h : ∀ e ∈ es, inactiveCollapsingEvent f e = false) :
    (runState c es).validSplits = [activePhase b f auxVariable] := by
  induction es generalizing c with
  | nil => exact hval
  | cons e es ih =>
    rw [runState_cons]
    exact ih _ (goodState_step b f auxVariable c e hg)
      (step_active_stays b f auxVariable c e hg hval (h e (List.mem_cons_self e es)))
      (fun e' he' => h e' (List.mem_cons_of_mem e he'))

/-! ### Claim theorems about the phase-validity tracker -/

/-- C6: the valid-phase set holds both phases at construction, is never
empty after any notification sequence, its size is monotonically
non-increasing under extension of the sequence, and each single
notification either leaves it unchanged or makes it a singleton. -/
theorem validSplits_invariant (b f auxVariable : Nat) (es es' : List Event) (e : Event) :
    (ReluConstraint.construct b f auxVariable).validSplits
        = [activePhase b f auxVariable, inactivePhase b f auxVariable] ∧
    (runState (ReluConstraint.construct b f auxVariable) es).validSplits ≠ [] ∧
    (runState (ReluConstraint.construct b f auxVariable) (es ++ es')).validSplits.length
        ≤ (runState (ReluConstraint.construct b f auxVariable) es).validSplits.length ∧
    ((step (runState (ReluConstraint.construct b f auxVariable) es) e).1.validSplits
        = (runState (ReluConstraint.construct b f auxVariable) es).validSplits ∨
     (step (runState (ReluConstraint.construct b f auxVariable) es) e).1.validSplits.length
        = 1) := by
  have hg := goodState_runState b f auxVariable _ es (goodState_construct b f auxVariable)
  refine ⟨rfl, ?_, ?_, ?_⟩
  · rcases hg.2.2.2 with hv | hv | hv <;> rw [hv] <;> simp
  · rw [runState_append]
    rcases hg.2.2.2 with hv | hv | hv
    · have hg' := goodState_runState b f auxVariable _ es' hg
      rcases hg'.2.2.2 with hv' | hv' | hv' <;> rw [hv, hv'] <;> simp
    · rw [runState_length_one b f auxVariable _ es' hg (by rw [hv]; rfl), hv]
      exact le_refl 1
    · rw [runState_length_one b f auxVariable _ es' hg (by rw [hv]; rfl), hv]
      exact le_refl 1
  · rcases step_validSplits (runState (ReluConstraint.construct b f auxVariable) es) e
      with ⟨h1, _⟩ | ⟨h1, _⟩ | ⟨h1, _⟩
    · exact Or.inl h1
    · exact Or.inr (by rw [h1]; rfl)
    · exact Or.inr (by rw [h1]; rfl)

/-- C9: `getCaseSplits` returns the current valid-phase set verbatim (1 or
2 phases on any reachable state), depends only on the valid-phase set (in
particular it needs no cached value), and two states with the same set give
identical results. -/
theorem getCaseSplits_pure (b f auxVariable : Nat) (es : List Event)
    (c' : ReluConstraint)
    (hsame : c'.validSplits
        = (runState (ReluConstraint.construct b f auxVariable) es).validSplits) :
    getCaseSplits (runState (ReluConstraint.construct b f auxVariable) es)
        = (runState (ReluConstraint.construct b f auxVariable) es).validSplits ∧
    (1 ≤ (getCaseSplits (runState (ReluConstraint.construct b f auxVariable) es)).length ∧
     (getCaseSplits (runState (ReluConstraint.construct b f auxVariable) es)).length ≤ 2) ∧
    getCaseSplits c'
        = getCaseSplits (runState (ReluConstraint.construct b f auxVariable) es) := by
  have hg := goodState_runState b f auxVariable _ es (goodState_construct b f auxVariable)
  refine ⟨rfl, ?_, hsame⟩
  rcases hg.2.2.2 with hv | hv | hv <;> rw [getCaseSplits, hv] <;> exact ⟨by simp, by simp⟩

/-- Witness for C9 on the freshly constructed instance (no cached values
present). -/
theorem getCaseSplits_pure_witness :
    ((ReluConstraint.construct 0 1 2).validSplits
        = (runState (ReluConstraint.construct 0 1 2) []).validSplits) ∧
    (getCaseSplits (runState (ReluConstraint.construct 0 1 2) [])
        = (runState (ReluConstraint.construct 0 1 2) []).validSplits ∧
    (1 ≤ (getCaseSplits (runState (ReluConstraint.construct 0 1 2) [])).length ∧
     (getCaseSplits (runState (ReluConstraint.construct 0 1 2) [])).length ≤ 2) ∧
    getCaseSplits (ReluConstraint.construct 0 1 2)
        = getCaseSplits (runState (ReluConstraint.construct 0 1 2) [])) :=
  ⟨rfl, getCaseSplits_pure 0 1 2 [] (ReluConstraint.construct 0 1 2) rfl⟩

/-- C10: while no collapsing bound notification has occurred the case
splits come back as the pair [active, inactive] in construction order;
immediately after a collapsing notification they are the single remaining
phase (active for a qualifying lower bound, inactive for a qualifying
upper bound). -/
theorem getCaseSplits_order (b f auxVariable : Nat) (es : List Event)
    (h : ∀ e ∈ es, collapsingEvent b f e = false) :
    getCaseSplits (runState (ReluConstraint.construct b f auxVariable) es)
        = [activePhase b f auxVariable, inactivePhase b f auxVariable] ∧
    (∀ (es' : List Event) (v : Nat) (q : ℚ), (v = b ∨ v = f) → 0 < q →
      getCaseSplits (runState (ReluConstraint.construct b f auxVariable)
          (es' ++ [Event.lower v q]))
        = [activePhase b f auxVariable]) ∧
    (∀ (es' : List Event) (q : ℚ), q < 0 →
      getCaseSplits (runState (ReluConstraint.construct b f auxVariable)
          (es' ++ [Event.upper f q]))
        = [inactivePhase b f auxVariable]) := by
  refine ⟨?_, ?_, ?_⟩
  · rw [getCaseSplits,
      (runState_noncollapsing b f auxVariable _ es (goodState_construct b f auxVariable) h).1]
    rfl
  · intro es' v q hv hq
    have hg := goodState_runState b f auxVariable _ es' (goodState_construct b f auxVariable)
    rw [getCaseSplits, runState_append]
    have hcol := step_lower_collapse (runState (ReluConstraint.construct b f auxVariable) es')
      v q (by rw [hg.1, hg.2.1]; exact hv) hq
    rw [runState_cons, runState, hcol.1, hg.2.2.1]
    rfl
  · intro es' q hq
    have hg := goodState_runState b f auxVariable _ es' (goodState_construct b f auxVariable)
    rw [getCaseSplits, runState_append]
    have hcol := step_upper_collapse (runState (ReluConstraint.construct b f auxVariable) es')
      f q (by rw [hg.2.1]) hq
    rw [runState_cons, runState, hcol.1, hg.2.2.1]
    rfl

/-- Witness for C10 after one non-collapsing notification. -/
theorem getCaseSplits_order_witness :
    (∀ e ∈ [Event.value 0 3], collapsingEvent 0 1 e = false) ∧
    getCaseSplits (runState (ReluConstraint.construct 0 1 2) [Event.value 0 3])
        = [activePhase 0 1 2, inactivePhase 0 1 2] :=
  ⟨by decide, (getCaseSplits_order 0 1 2 [Event.value 0 3] (by decide)).1⟩

/-- C2 (behaviour of the code at the failing input): after a single
qualifying lower-bound notification the tableau receives exactly one
apply-phase call, but a second identical qualifying notification — which
leaves the already-singleton valid-phase set unchanged — triggers a
second `applySplit` call for the same phase: the code has no
re-application guard. -/
theorem notifyLowerBound_reapplies :
    runTrace (ReluConstraint.construct 0 1 2) [Event.lower 0 1]
        = [activePhase 0 1 2] ∧
    (runState (ReluConstraint.construct 0 1 2)
        [Event.lower 0 1, Event.lower 0 1]).validSplits
        = [activePhase 0 1 2] ∧
    runTrace (ReluConstraint.construct 0 1 2) [Event.lower 0 1, Event.lower 0 1]
        = [activePhase 0 1 2, activePhase 0 1 2] := by decide

/-- C3 counterexample: after a strictly positive lower bound on `b` has
collapsed the valid-phase set to the active split, a later strictly
negative upper-bound notification on `f` changes it to the inactive
split. -/
theorem activeCollapse_not_permanent :
    (runState (ReluConstraint.construct 0 1 2) [Event.lower 0 1]).validSplits
        = [activePhase 0 1 2] ∧
    (runState (ReluConstraint.construct 0 1 2)
        [Event.lower 0 1, Event.upper 1 (-1)]).validSplits
        = [inactivePhase 0 1 2] ∧
    (runState (ReluConstraint.construct 0 1 2)
        [Event.lower 0 1, Event.upper 1 (-1)]).validSplits
        ≠ [activePhase 0 1 2] := by decide

/-- C3 (amended): once a strictly positive lower bound is observed on `b`
or `f`, the valid-phase set equals the singleton active split for the
remainder of the instance's life, as long as no strictly negative
upper-bound notification on `f` arrives afterwards. -/
theorem activeCollapse_persists (b f auxVariable : Nat) (es es' : List Event)
    (v : Nat) (q : ℚ) (hv : v = b ∨ v = f) (hq : 0 < q)
    (h : ∀ e ∈ es', inactiveCollapsingEvent f e = false) :
    (runState (ReluConstraint.construct b f auxVariable)
        (es ++ Event.lower v q :: es')).validSplits
      = [activePhase b f auxVariable] := by
  rw [runState_append, runState_cons]
  have hg := goodState_runState b f auxVariable _ es (goodState_construct b f auxVariable)
  have hcol := step_lower_collapse (runState (ReluConstraint.construct b f auxVariable) es)
    v q (by rw [hg.1, hg.2.1]; exact hv) hq
  have hval : (step (runState (ReluConstraint.construct b f auxVariable) es)
      (Event.lower v q)).1.validSplits = [activePhase b f auxVariable] := by
    rw [hcol.1, hg.2.2.1]
    rfl
  exact runState_active_stays b f auxVariable _ es'
    (goodState_step b f auxVariable _ _ hg) hval h

/-- Witness for C3 (amended): collapse by a lower bound on `b`, then a
value notification and a non-negative upper bound on `f`; the set stays
at the active split. -/
theorem activeCollapse_persists_witness :
    (((0:Nat) = 0 ∨ (0:Nat) = 1) ∧ (0:ℚ) < 1 ∧
      (∀ e ∈ [Event.value 0 3, Event.upper 1 5],
        inactiveCollapsingEvent 1 e = false)) ∧
    (runState (ReluConstraint.construct 0 1 2)
        ([] ++ Event.lower 0 1 :: [Event.value 0 3, Event.upper 1 5])).validSplits
      = [activePhase 0 1 2] :=
  ⟨⟨Or.inl rfl, by decide, by decide⟩,
    activeCollapse_persists 0 1 2 [] [Event.value 0 3, Event.upper 1 5] 0 1
      (Or.inl rfl) (by decide) (by decide)⟩

/-- C7 counterexample: a value or bound notification for a variable other
than `b` and `f` is not a no-op on the cached state — the source stores
the entry unconditionally. -/
theorem notify_nonparticipating_not_noop :
    (notifyVariableValue (ReluConstraint.construct 0 1 2) 5 7).assignment
        ≠ (ReluConstraint.construct 0 1 2).assignment ∧
    (notifyLowerBound (ReluConstraint.construct 0 1 2) 5 7).1.lowerBounds
        ≠ (ReluConstraint.construct 0 1 2).lowerBounds ∧
    (notifyUpperBound (ReluConstraint.construct 0 1 2) 5 7).1.upperBounds
        ≠ (ReluConstraint.construct 0 1 2).upperBounds := by decide

/-- C7 (amended): a notification for a variable outside `{b, f}` is cached
(the entry appears in the corresponding map) but is otherwise inert: it
changes neither the answers of `satisfied` and `getPossibleFixes`, nor the
valid-phase set, and bound notifications for such a variable issue no
apply-phase call. -/
theorem notify_nonparticipating_frame (eps : ℚ) (c : ReluConstraint)
    (v : Nat) (q : ℚ) (hvb : v ≠ c.b) (hvf : v ≠ c.f) :
    (notifyVariableValue c v q).assignment.getEntry v = some q ∧
    satisfied eps (notifyVariableValue c v q) = satisfied eps c ∧
    getPossibleFixes eps (notifyVariableValue c v q) = getPossibleFixes eps c ∧
    (notifyVariableValue c v q).validSplits = c.validSplits ∧
    (notifyLowerBound c v q).1.validSplits = c.validSplits ∧
    (notifyLowerBound c v q).2 = [] ∧
    (notifyUpperBound c v q).1.validSplits = c.validSplits ∧
    (notifyUpperBound c v q).2 = [] := by
  have hgb : (c.assignment.setEntry v q).getEntry c.b = c.assignment.getEntry c.b :=
    VMap.getEntry_setEntry_ne _ _ _ _ (Ne.symm hvb)
  have hgf : (c.assignment.setEntry v q).getEntry c.f = c.assignment.getEntry c.f :=
    VMap.getEntry_setEntry_ne _ _ _ _ (Ne.symm hvf)
  have hsat : satisfied eps (notifyVariableValue c v q) = satisfied eps c := by
    simp only [satisfied, notifyVariableValue, VMap.hasKey, hgb, hgf]
  have hlow : ((v = c.b || v = c.f) && FloatUtils.isPositive q) = false := by
    simp [hvb, hvf]
  have hupp : ((v = c.f) && FloatUtils.isNegative q) = false := by
    simp [hvf]
  refine ⟨VMap.getEntry_setEntry_self _ _ _, hsat, ?_, rfl, ?_, ?_, ?_, ?_⟩
  · unfold getPossibleFixes
    rw [hsat]
    simp only [notifyVariableValue, hgb, hgf]
  · rw [notifyLowerBound, if_neg (by rw [hlow]; exact Bool.noConfusion)]
  · rw [notifyLowerBound, if_neg (by rw [hlow]; exact Bool.noConfusion)]
  · rw [notifyUpperBound, if_neg (by rw [hupp]; exact Bool.noConfusion)]
  · rw [notifyUpperBound, if_neg (by rw [hupp]; exact Bool.noConfusion)]

/-- Witness for C7 (amended) at a fresh instance and the non-participating
variable id 5. -/
theorem notify_nonparticipating_frame_witness :
    ((5:Nat) ≠ (ReluConstraint.construct 0 1 2).b ∧
     (5:Nat) ≠ (ReluConstraint.construct 0 1 2).f) ∧
    ((notifyVariableValue (ReluConstraint.construct 0 1 2) 5 7).assignment.getEntry 5
        = some 7 ∧
    satisfied 0 (notifyVariableValue (ReluConstraint.construct 0 1 2) 5 7)
        = satisfied 0 (ReluConstraint.construct 0 1 2) ∧
    getPossibleFixes 0 (notifyVariableValue (ReluConstraint.construct 0 1 2) 5 7)
        = getPossibleFixes 0 (ReluConstraint.construct 0 1 2) ∧
    (notifyVariableValue (ReluConstraint.construct 0 1 2) 5 7).validSplits
        = (ReluConstraint.construct 0 1 2).validSplits ∧
    (notifyLowerBound (ReluConstraint.construct 0 1 2) 5 7).1.validSplits
        = (ReluConstraint.construct 0 1 2).validSplits ∧
    (notifyLowerBound (ReluConstraint.construct 0 1 2) 5 7).2 = [] ∧
    (notifyUpperBound (ReluConstraint.construct 0 1 2) 5 7).1.validSplits
        = (ReluConstraint.construct 0 1 2).validSplits ∧
    (notifyUpperBound (ReluConstraint.construct 0 1 2) 5 7).2 = []) :=
  ⟨⟨by decide, by decide⟩,
    notify_nonparticipating_frame 0 (ReluConstraint.construct 0 1 2) 5 7
      (by decide) (by decide)⟩

/-- C8: whenever at least one participating variable has no cached value,
`satisfied` and `getPossibleFixes` both surface the missing-assignment
error; in particular `satisfied` queried on a freshly constructed instance
(before any value notification) does. -/
theorem missingAssignment_surfaced (eps : ℚ) (c : ReluConstraint)
    (b f auxVariable : Nat)
    (h : (c.assignment.hasKey c.b && c.assignment.hasKey c.f) = false) :
    satisfied eps c = Except.error QueryError.missingAssignment ∧
    getPossibleFixes eps c = Except.error QueryError.missingAssignment ∧
    satisfied eps (ReluConstraint.construct b f auxVariable)
        = Except.error QueryError.missingAssignment := by
  have h1 : satisfied eps c = Except.error QueryError.missingAssignment := by
    rw [satisfied, h]
    rfl
  refine ⟨h1, ?_, rfl⟩
  rw [getPossibleFixes, h1]

/-- Witness for C8 on an instance with only `b`'s value cached. -/
theorem missingAssignment_surfaced_witness :
    (((notifyVariableValue (ReluConstraint.construct 0 1 2) 0 3).assignment.hasKey
          (notifyVariableValue (ReluConstraint.construct 0 1 2) 0 3).b &&
      (notifyVariableValue (ReluConstraint.construct 0 1 2) 0 3).assignment.hasKey
          (notifyVariableValue (ReluConstraint.construct 0 1 2) 0 3).f) = false) ∧
    (satisfied 0 (notifyVariableValue (ReluConstraint.construct 0 1 2) 0 3)
        = Except.error QueryError.missingAssignment ∧
    getPossibleFixes 0 (notifyVariableValue (ReluConstraint.construct 0 1 2) 0 3)
        = Except.error QueryError.missingAssignment ∧
    satisfied 0 (ReluConstraint.construct 3 4 5)
        = Except.error QueryError.missingAssignment) :=
  ⟨by decide,
    missingAssignment_surfaced 0 (notifyVariableValue (ReluConstraint.construct 0 1 2) 0 3)
      3 4 5 (by decide)⟩

end Marabou
